import Mathlib

/-!
Verification of the transform / layout / session core of the `immi`
immediate-mode UI library (`src/layout.rs`, `src/animations/mod.rs`).

Floating-point arithmetic (`f32`/`f64`) is embedded as exact rational
arithmetic (`ℚ`), except for the exponential interpolation which is embedded
over the reals (`ℝ`).  Division by zero follows Lean's convention `x / 0 = 0`;
`NaN` is not representable, so the source's `x != x` guards are kept literally
and are decidably false.
-/

namespace Immi

/-- A 2D point (a cursor position, or a projected corner). -/
structure P2 where
  x : ℚ
  y : ℚ
  deriving DecidableEq, Repr

/-- A homogeneous 2D point, as produced by applying a `Matrix` to a point. -/
structure Vec3 where
  x : ℚ
  y : ℚ
  z : ℚ
  deriving DecidableEq, Repr

/-- Modelled from the spec: the crate's `Matrix` type (its source file is not
under `src/`): a 3×3 projective matrix over 2D homogeneous coordinates,
immutable, built from `identity` / `translate` / `scale` / `scale_wh` and
combined by multiplication.  Entry `mij` is row `i`, column `j` of the stored
array, and points are applied as row vectors (`out[j] = Σ_i p[i]*m[i][j]`),
which is the convention `layout.rs` spells out literally in
`cursor_hover_coordinates`. -/
structure Matrix where
  m00 : ℚ
  m01 : ℚ
  m02 : ℚ
  m10 : ℚ
  m11 : ℚ
  m12 : ℚ
  m20 : ℚ
  m21 : ℚ
  m22 : ℚ
  deriving DecidableEq, Repr

/-- Modelled from the spec: `Matrix::identity()`. -/
def Matrix.identity : Matrix :=
  ⟨1, 0, 0, 0, 1, 0, 0, 0, 1⟩

/-- Modelled from the spec: `Matrix::translate(dx, dy)` (row-vector
convention, so the offsets sit in the last row). -/
def Matrix.translate (dx dy : ℚ) : Matrix :=
  ⟨1, 0, 0, 0, 1, 0, dx, dy, 1⟩

/-- Modelled from the spec: `Matrix::scale_wh(sx, sy)`. -/
def Matrix.scale_wh (sx sy : ℚ) : Matrix :=
  ⟨sx, 0, 0, 0, sy, 0, 0, 0, 1⟩

/-- Modelled from the spec: `Matrix::scale(s)` (uniform scale). -/
def Matrix.scale (s : ℚ) : Matrix :=
  Matrix.scale_wh s s

/-- Modelled from the spec: applying a `Matrix` to a homogeneous point
(the crate's `Matrix * [f32; 3]`); row-vector convention, matching the
index expressions written out in `cursor_hover_coordinates`. -/
def Matrix.applyH (m : Matrix) (v : Vec3) : Vec3 :=
  ⟨v.x * m.m00 + v.y * m.m10 + v.z * m.m20,
   v.x * m.m01 + v.y * m.m11 + v.z * m.m21,
   v.x * m.m02 + v.y * m.m12 + v.z * m.m22⟩

/-- Modelled from the spec: matrix multiplication, where applying `a * b`
equals applying `b` first and then `a` (the order `layout.rs` relies on in
`self.matrix * pos_matrix * scale_matrix`).  Under the row-vector storage
convention this is the storage product of `b` by `a`. -/
def Matrix.mul (a b : Matrix) : Matrix :=
  ⟨b.m00 * a.m00 + b.m01 * a.m10 + b.m02 * a.m20,
   b.m00 * a.m01 + b.m01 * a.m11 + b.m02 * a.m21,
   b.m00 * a.m02 + b.m01 * a.m12 + b.m02 * a.m22,
   b.m10 * a.m00 + b.m11 * a.m10 + b.m12 * a.m20,
   b.m10 * a.m01 + b.m11 * a.m11 + b.m12 * a.m21,
   b.m10 * a.m02 + b.m11 * a.m12 + b.m12 * a.m22,
   b.m20 * a.m00 + b.m21 * a.m10 + b.m22 * a.m20,
   b.m20 * a.m01 + b.m21 * a.m11 + b.m22 * a.m21,
   b.m20 * a.m02 + b.m21 * a.m12 + b.m22 * a.m22⟩

instance : Mul Matrix :=
  ⟨Matrix.mul⟩

/-- Modelled from the spec: the determinant of the stored 3×3 array, used by
`invert` to detect singularity. -/
def Matrix.det (m : Matrix) : ℚ :=
  m.m00 * (m.m11 * m.m22 - m.m12 * m.m21)
    - m.m01 * (m.m10 * m.m22 - m.m12 * m.m20)
    + m.m02 * (m.m10 * m.m21 - m.m11 * m.m20)

/-- Modelled from the spec: `Matrix::invert()`, `none` exactly when the
matrix is singular (zero determinant in exact arithmetic), otherwise the
adjugate divided by the determinant. -/
def Matrix.invert (m : Matrix) : Option Matrix :=
  let d := m.det
  if d = 0 then none
  else some
    ⟨(m.m11 * m.m22 - m.m12 * m.m21) / d,
     (m.m02 * m.m21 - m.m01 * m.m22) / d,
     (m.m01 * m.m12 - m.m02 * m.m11) / d,
     (m.m12 * m.m20 - m.m10 * m.m22) / d,
     (m.m00 * m.m22 - m.m02 * m.m20) / d,
     (m.m02 * m.m10 - m.m00 * m.m12) / d,
     (m.m10 * m.m21 - m.m11 * m.m20) / d,
     (m.m01 * m.m20 - m.m00 * m.m21) / d,
     (m.m00 * m.m11 - m.m01 * m.m10) / d⟩

/-- `HorizontalAlignment` from `layout.rs`. -/
inductive HorizontalAlignment where
  | Center
  | Left
  | Right
  deriving DecidableEq, Repr

/-- `VerticalAlignment` from `layout.rs`. -/
inductive VerticalAlignment where
  | Center
  | Top
  | Bottom
  deriving DecidableEq, Repr

/-- `Alignment` from `layout.rs`: a pair of per-axis alignments. -/
structure Alignment where
  horizontal : HorizontalAlignment
  vertical : VerticalAlignment
  deriving DecidableEq, Repr

/-- `Alignment::center()`. -/
def Alignment.center : Alignment :=
  ⟨HorizontalAlignment.Center, VerticalAlignment.Center⟩

/-- `Alignment::top_left()`. -/
def Alignment.top_left : Alignment :=
  ⟨HorizontalAlignment.Left, VerticalAlignment.Top⟩

/-- `Alignment::bottom_right()`. -/
def Alignment.bottom_right : Alignment :=
  ⟨HorizontalAlignment.Right, VerticalAlignment.Bottom⟩

/-- The value part of `DrawContext` from `layout.rs`: cumulative matrix,
dimensions, cursor snapshot and the press/release flags.  The `Arc<Shared2>`
reference is embedded as the index `shared2` of the per-root-draw-call flag
cell inside the `World` state below; `Arc<Shared1>` is the single session and
needs no per-node datum. -/
structure DrawContext where
  matrix : Matrix
  width : ℚ
  height : ℚ
  cursor : Option P2
  cursor_was_pressed : Bool
  cursor_was_released : Bool
  shared2 : ℕ
  deriving DecidableEq, Repr

/-- `DrawContext::width_per_height`. -/
def DrawContext.width_per_height (ctx : DrawContext) : ℚ :=
  ctx.width / ctx.height

/-- `DrawContext::rescale`. -/
def DrawContext.rescale (ctx : DrawContext) (width_percent height_percent : ℚ)
    (alignment : Alignment) : DrawContext :=
  let x := match alignment.horizontal with
    | HorizontalAlignment.Center => 0
    | HorizontalAlignment.Left => width_percent - 1
    | HorizontalAlignment.Right => 1 - width_percent
  let y := match alignment.vertical with
    | VerticalAlignment.Center => 0
    | VerticalAlignment.Bottom => height_percent - 1
    | VerticalAlignment.Top => 1 - height_percent
  { ctx with
    matrix := ctx.matrix * Matrix.translate x y * Matrix.scale_wh width_percent height_percent,
    width := ctx.width * width_percent,
    height := ctx.height * height_percent }

/-- `DrawContext::margin`: two successive rescales. -/
def DrawContext.margin (ctx : DrawContext) (top right bottom left : ℚ) : DrawContext :=
  (ctx.rescale (1 - left) (1 - top) Alignment.bottom_right).rescale
    (1 - right) (1 - bottom) Alignment.top_left

/-- `DrawContext::uniform_margin`. -/
def DrawContext.uniform_margin (ctx : DrawContext) (top right bottom left : ℚ) : DrawContext :=
  let wph := ctx.width_per_height
  let wph := if wph < 1 then 1 else wph
  let hpw := 1 / ctx.width_per_height
  let hpw := if hpw < 1 then 1 else hpw
  ctx.margin (top / hpw) (right / wph) (bottom / hpw) (left / wph)

/-- `DrawContext::vertical_rescale`. -/
def DrawContext.vertical_rescale (ctx : DrawContext) (scale : ℚ)
    (alignment : VerticalAlignment) : DrawContext :=
  let y := match alignment with
    | VerticalAlignment.Center => 0
    | VerticalAlignment.Bottom => scale - 1
    | VerticalAlignment.Top => 1 - scale
  { ctx with
    matrix := ctx.matrix * Matrix.translate 0 y * Matrix.scale_wh 1 scale,
    height := ctx.height * scale }

/-- `DrawContext::horizontal_rescale`. -/
def DrawContext.horizontal_rescale (ctx : DrawContext) (scale : ℚ)
    (alignment : HorizontalAlignment) : DrawContext :=
  let x := match alignment with
    | HorizontalAlignment.Center => 0
    | HorizontalAlignment.Left => scale - 1
    | HorizontalAlignment.Right => 1 - scale
  { ctx with
    matrix := ctx.matrix * Matrix.translate x 0 * Matrix.scale_wh scale 1,
    width := ctx.width * scale }

/-- `DrawContext::enforce_aspect_ratio_downscale`. -/
def DrawContext.enforce_aspect_ratio_downscale (ctx : DrawContext)
    (width_per_height : ℚ) (alignment : Alignment) : DrawContext :=
  let current_width_per_height := ctx.width_per_height
  if width_per_height > current_width_per_height then
    ctx.vertical_rescale (current_width_per_height / width_per_height) alignment.vertical
  else
    ctx.horizontal_rescale (width_per_height / current_width_per_height) alignment.horizontal

/-- The inner `test` function of `DrawContext::is_cursor_hovering`: maps the
four corners of the square `(-1,-1)..(1,1)` through the matrix, divides each
by its homogeneous `w` component, and returns `false` as soon as one of the
four oriented-edge dot products is negative. -/
def testHover (matrix : Matrix) (point : P2) : Bool :=
  let top_left3 := matrix.applyH ⟨-1, 1, 1⟩
  let top_left : P2 := ⟨top_left3.x / top_left3.z, top_left3.y / top_left3.z⟩
  let top_right3 := matrix.applyH ⟨1, 1, 1⟩
  let top_right : P2 := ⟨top_right3.x / top_right3.z, top_right3.y / top_right3.z⟩
  let bot_left3 := matrix.applyH ⟨-1, -1, 1⟩
  let bot_left : P2 := ⟨bot_left3.x / bot_left3.z, bot_left3.y / bot_left3.z⟩
  let bot_right3 := matrix.applyH ⟨1, -1, 1⟩
  let bot_right : P2 := ⟨bot_right3.x / bot_right3.z, bot_right3.y / bot_right3.z⟩
  if (point.x - top_left.x) * (top_right.x - top_left.x) +
     (point.y - top_left.y) * (top_right.y - top_left.y) < 0 then false
  else if (point.x - top_right.x) * (bot_right.x - top_right.x) +
          (point.y - top_right.y) * (bot_right.y - top_right.y) < 0 then false
  else if (point.x - bot_right.x) * (bot_left.x - bot_right.x) +
          (point.y - bot_right.y) * (bot_left.y - bot_right.y) < 0 then false
  else if (point.x - bot_left.x) * (top_left.x - bot_left.x) +
          (point.y - bot_left.y) * (top_left.y - bot_left.y) < 0 then false
  else true

/-- `DrawContext::is_cursor_hovering`. -/
def DrawContext.is_cursor_hovering (ctx : DrawContext) : Bool :=
  match ctx.cursor with
  | some cursor => testHover ctx.matrix cursor
  | none => false

/-- `DrawContext::cursor_hover_coordinates`.  The source's NaN guard
`output_mouse[i] != output_mouse[i]` is kept literally; over `ℚ` it is
decidably false. -/
def DrawContext.cursor_hover_coordinates (ctx : DrawContext) : Option P2 :=
  match ctx.matrix.invert with
  | none => none
  | some m =>
    match ctx.cursor with
    | none => none
    | some in_pos =>
      let output_mouse : Vec3 :=
        ⟨in_pos.x * m.m00 + in_pos.y * m.m10 + m.m20,
         in_pos.x * m.m01 + in_pos.y * m.m11 + m.m21,
         in_pos.x * m.m02 + in_pos.y * m.m12 + m.m22⟩
      let output_mouse : P2 := ⟨output_mouse.x / output_mouse.z, output_mouse.y / output_mouse.z⟩
      if output_mouse.x < -1 ∨ output_mouse.x > 1 ∨ output_mouse.x ≠ output_mouse.x ∨
         output_mouse.y < -1 ∨ output_mouse.y > 1 ∨ output_mouse.y ≠ output_mouse.y then
        none
      else
        some output_mouse

/-- The chunk built for one weight inside `DrawContext::split_weights`
(the body of the closure passed to `weights.map`). -/
def split_chunk (ctx : DrawContext) (total_weight_inverse : ℚ) (vertical : Bool)
    (current_offset weight : ℚ) : DrawContext :=
  let new_width := if ¬vertical then ctx.width * weight * total_weight_inverse else ctx.width
  let new_height := if vertical then ctx.height * weight * total_weight_inverse else ctx.height
  let scale_matrix := if vertical then
      Matrix.scale_wh 1 (weight * total_weight_inverse)
    else
      Matrix.scale_wh (weight * total_weight_inverse) 1
  let pos_matrix := if vertical then
      Matrix.translate 0 (1 - 2 * (current_offset + weight * (1/2)) * total_weight_inverse)
    else
      Matrix.translate (2 * (current_offset + weight * (1/2)) * total_weight_inverse - 1) 0
  { ctx with
    matrix := ctx.matrix * pos_matrix * scale_matrix,
    width := new_width,
    height := new_height }

/-- The `weights.map` loop of `DrawContext::split_weights`, threading the
running `current_offset`. -/
def split_weights_go (ctx : DrawContext) (total_weight_inverse : ℚ) (vertical : Bool) :
    List ℚ → ℚ → List DrawContext
  | [], _ => []
  | weight :: rest, current_offset =>
    split_chunk ctx total_weight_inverse vertical current_offset weight ::
      split_weights_go ctx total_weight_inverse vertical rest (current_offset + weight)

/-- The `weights.clone().fold(0.0, |a, b| a + b)` total of
`DrawContext::split_weights`. -/
def totalW (weights : List ℚ) : ℚ :=
  weights.foldl (fun a b => a + b) 0

/-- `DrawContext::split_weights`.  The `assert!(weights.len() != 0)` abort is
embedded as `none`. -/
def DrawContext.split_weights (ctx : DrawContext) (weights : List ℚ) (vertical : Bool) :
    Option (List DrawContext) :=
  if weights.length = 0 then none
  else
    let total_weight := totalW weights
    let total_weight_inverse := 1 / total_weight
    some (split_weights_go ctx total_weight_inverse vertical weights 0)

/-- `DrawContext::vertical_split_weights`. -/
def DrawContext.vertical_split_weights (ctx : DrawContext) (weights : List ℚ) :
    Option (List DrawContext) :=
  ctx.split_weights weights true

/-- `DrawContext::horizontal_split_weights`. -/
def DrawContext.horizontal_split_weights (ctx : DrawContext) (weights : List ℚ) :
    Option (List DrawContext) :=
  ctx.split_weights weights false

/-- The `Shared1` session state from `layout.rs` (`ui_state.active_widget`,
`next_widget_id`, `cursor_hovered_widget`).  The widget-id counter is a
`usize`; its wrap-around is kept explicit below. -/
structure Shared1State where
  next_widget_id : ℕ
  cursor_hovered_widget : Bool
  active_widget : Option ℕ
  deriving DecidableEq, Repr

/-- The number of `usize` values: `fetch_add` on `AtomicUsize` wraps at this
modulus (64-bit platform). -/
def usizeSize : ℕ :=
  2 ^ 64

/-- The mutable state reachable from one `SharedDrawContext`: the single
`Shared1` session plus one `Shared2.cursor_hovered_widget` flag cell per root
`SharedDrawContext::draw` call made so far (a `DrawContext` holds the index of
its cell in this list). -/
structure World where
  shared1 : Shared1State
  shared2 : List Bool
  deriving DecidableEq, Repr

/-- The free function `draw(ui_state)`: a fresh session with
`next_widget_id = 1`, `cursor_hovered_widget = false`, and no root draw call
made yet. -/
def draw : World :=
  ⟨⟨1, false, none⟩, []⟩

/-- `SharedDrawContext::draw`: builds a root `DrawContext` with the identity
matrix and a fresh `Shared2` flag cell initialised to `false`. -/
def sharedDraw (w : World) (width height : ℚ) (cursor : Option P2)
    (cursor_was_pressed cursor_was_released : Bool) : DrawContext × World :=
  (⟨Matrix.identity, width, height, cursor, cursor_was_pressed, cursor_was_released,
    w.shared2.length⟩,
   { w with shared2 := w.shared2 ++ [false] })

/-- `SharedDrawContext::cursor_hovered_widget`: reads the session-wide flag. -/
def sharedCursorHoveredWidget (w : World) : Bool :=
  w.shared1.cursor_hovered_widget

/-- `DrawContext::cursor_hovered_widget`: reads the flag of the node's own
root draw call (`shared2`). -/
def DrawContext.cursor_hovered_widget (ctx : DrawContext) (w : World) : Bool :=
  w.shared2.getD ctx.shared2 false

/-- `DrawContext::set_cursor_hovered_widget`: stores `true` into the
session-wide flag and into the node's `Shared2` flag. -/
def DrawContext.set_cursor_hovered_widget (ctx : DrawContext) (w : World) : World :=
  { shared1 := { w.shared1 with cursor_hovered_widget := true },
    shared2 := w.shared2.set ctx.shared2 true }

/-- `DrawContext::reserve_widget_id`: `fetch_add(1)` on the session counter,
returning the pre-increment value; the stored counter wraps like `usize`. -/
def DrawContext.reserve_widget_id (w : World) : ℕ × World :=
  (w.shared1.next_widget_id,
   { w with shared1 :=
      { w.shared1 with next_widget_id := (w.shared1.next_widget_id + 1) % usizeSize } })

/-- `n` successive `reserve_widget_id` calls on one session, in order. -/
def reserve_ids (w : World) : ℕ → List ℕ
  | 0 => []
  | n + 1 =>
    let r := DrawContext.reserve_widget_id w
    r.1 :: reserve_ids r.2 n

/-- `Interpolation for Linear::calculate` from `animations/mod.rs`, over exact
time values: `now.duration_since(start)` saturates at zero, both times are
converted to the same unit so the ratio is `elapsed / duration`, then the
result is clamped to `[0,1]`. -/
def Linear.calculate (now start duration : ℚ) : ℚ :=
  let now_minus_start := max (now - start) 0
  let anim_progress := now_minus_start / duration
  if anim_progress ≥ 1 then 1
  else if anim_progress ≤ 0 then 0
  else anim_progress

/-- `Interpolation for EaseOut::calculate` from `animations/mod.rs`, over the
reals: `duration_since` fails when `now < start` (the code then returns `0.0`
exactly), otherwise the result is `1 - exp(-(elapsed/duration) * factor)`,
unclamped. -/
noncomputable def EaseOut.calculate (factor now start duration : ℝ) : ℝ :=
  if now < start then 0
  else 1 - Real.exp (-((now - start) / duration) * factor)

/-- Sum of the first `i` weights: the value of `current_offset` when the
`i`-th chunk of `split_weights` is built. -/
def chunk_offset (weights : List ℚ) (i : ℕ) : ℚ :=
  totalW (weights.take i)

/-- The fraction of the split axis given to chunk `i`
(the `weight * total_weight_inverse` scale factor of `split_weights`). -/
def chunk_frac (weights : List ℚ) (i : ℕ) : ℚ :=
  weights.getD i 0 * (1 / totalW weights)

/-- The normalized translate offset of chunk `i` of a vertical split
(the `y` of its `pos_matrix`). -/
def chunk_center_v (weights : List ℚ) (i : ℕ) : ℚ :=
  1 - 2 * (chunk_offset weights i + weights.getD i 0 * (1/2)) * (1 / totalW weights)

/-- The normalized translate offset of chunk `i` of a horizontal split
(the `x` of its `pos_matrix`). -/
def chunk_center_h (weights : List ℚ) (i : ℕ) : ℚ :=
  2 * (chunk_offset weights i + weights.getD i 0 * (1/2)) * (1 / totalW weights) - 1

/-- Projection of a homogeneous point by its `w` (third) component, as done
corner-by-corner in `is_cursor_hovering`. -/
def projPoint (v : Vec3) : P2 :=
  ⟨v.x / v.z, v.y / v.z⟩

/-- A point of the root viewport lies inside the quadrilateral whose corners
are the four corners of the square `(-1,-1)..(1,1)` mapped through `m` (with
division by the homogeneous `w`): for the affine transforms the library
composes the quadrilateral is exactly the projected image of the square, so
membership is phrased as being the image of a point of the square. -/
def insideQuad (m : Matrix) (p : P2) : Prop :=
  ∃ u v : ℚ, -1 ≤ u ∧ u ≤ 1 ∧ -1 ≤ v ∧ v ≤ 1 ∧ projPoint (m.applyH ⟨u, v, 1⟩) = p

/-- The root-normalized cursor mapped through an (inverse) matrix and divided
by its homogeneous `w` component — the `output_mouse` value of
`cursor_hover_coordinates`. -/
def invMap (m : Matrix) (p : P2) : P2 :=
  ⟨(p.x * m.m00 + p.y * m.m10 + m.m20) / (p.x * m.m02 + p.y * m.m12 + m.m22),
   (p.x * m.m01 + p.y * m.m11 + m.m21) / (p.x * m.m02 + p.y * m.m12 + m.m22)⟩

/-- The claim's reading of `uniform_margin` (C2): top/bottom divided by the
width-per-height ratio clamped to at least 1, left/right divided by the
height-per-width ratio clamped to at least 1.  (The source does the
opposite pairing.) -/
def DrawContext.uniform_margin_claimed (ctx : DrawContext)
    (top right bottom left : ℚ) : DrawContext :=
  let wph := ctx.width_per_height
  let wph := if wph < 1 then 1 else wph
  let hpw := 1 / ctx.width_per_height
  let hpw := if hpw < 1 then 1 else hpw
  ctx.margin (top / wph) (right / hpw) (bottom / wph) (left / hpw)

/-! ## Helper lemmas -/

lemma clamp_one (x : ℚ) : (if x < 1 then (1:ℚ) else x) = max x 1 := by
  rcases lt_or_le x 1 with h | h
  · rw [if_pos h, max_eq_right h.le]
  · rw [if_neg (not_lt.mpr h), max_eq_left h]

lemma split_weights_none_iff (ctx : DrawContext) (weights : List ℚ) (vertical : Bool) :
    ctx.split_weights weights vertical = none ↔ weights = [] := by
  unfold DrawContext.split_weights
  split_ifs with h
  · simp [List.length_eq_zero.mp h]
  · simp
    intro hw
    exact h (by simp [hw])

lemma chain'_succ_range' (s n : ℕ) :
    List.Chain' (fun a b => b = a + 1) (List.range' s n) := by
  induction n generalizing s with
  | zero => simp
  | succ n ih =>
    rw [List.range'_succ]
    cases n with
    | zero => simp
    | succ m =>
      rw [List.range'_succ]
      exact List.Chain'.cons rfl (by rw [← List.range'_succ]; exact ih (s + 1))

lemma reserve_ids_range : ∀ (n : ℕ) (w : World),
    w.shared1.next_widget_id + n ≤ usizeSize →
    reserve_ids w n = List.range' w.shared1.next_widget_id n := by
  intro n
  induction n with
  | zero => intro w _; rfl
  | succ n ih =>
    intro w h
    have hstep : reserve_ids w (n + 1) =
        w.shared1.next_widget_id :: reserve_ids (DrawContext.reserve_widget_id w).2 n := rfl
    rw [hstep, List.range'_succ]
    congr 1
    cases n with
    | zero => rfl
    | succ k =>
      have hlt : w.shared1.next_widget_id + 1 < usizeSize := by omega
      have hnext : (DrawContext.reserve_widget_id w).2.shared1.next_widget_id =
          w.shared1.next_widget_id + 1 := by
        simp [DrawContext.reserve_widget_id, Nat.mod_eq_of_lt hlt]
      rw [ih _ (by rw [hnext]; omega), hnext]

lemma getD_set_self : ∀ (l : List Bool) (i : ℕ), i < l.length →
    (l.set i true).getD i false = true := by
  intro l
  induction l with
  | nil => intro i h; simp at h
  | cons a t ih =>
    intro i h
    cases i with
    | zero => rfl
    | succ k =>
      simp only [List.set_cons_succ, List.getD_cons_succ]
      exact ih k (by simpa using h)

lemma getD_set_ne : ∀ (l : List Bool) (b : Bool) (i j : ℕ), i ≠ j →
    (l.set i b).getD j false = l.getD j false := by
  intro l
  induction l with
  | nil => intro b i j _; rfl
  | cons a t ih =>
    intro b i j hij
    cases i with
    | zero =>
      cases j with
      | zero => exact absurd rfl hij
      | succ k => rfl
    | succ i' =>
      cases j with
      | zero => rfl
      | succ k =>
        simp only [List.set_cons_succ, List.getD_cons_succ]
        exact ih b i' k (by omega)

lemma foldl_add_shift (l : List ℚ) : ∀ a : ℚ,
    l.foldl (fun x y => x + y) a = a + l.foldl (fun x y => x + y) 0 := by
  induction l with
  | nil => intro a; simp
  | cons b t ih =>
    intro a
    show t.foldl _ (a + b) = a + t.foldl _ (0 + b)
    rw [ih (a + b), ih (0 + b)]
    ring

lemma totalW_cons (b : ℚ) (t : List ℚ) : totalW (b :: t) = b + totalW t := by
  show t.foldl _ (0 + b) = b + t.foldl _ 0
  rw [foldl_add_shift t (0 + b), zero_add]

lemma totalW_take_succ : ∀ (ws : List ℚ) (i : ℕ), i < ws.length →
    totalW (ws.take (i + 1)) = totalW (ws.take i) + ws.getD i 0 := by
  intro ws
  induction ws with
  | nil => intro i h; simp at h
  | cons w rest ih =>
    intro i h
    cases i with
    | zero =>
      simp only [List.take_succ_cons, List.take_zero, List.getD_cons_zero, totalW_cons]
      show w + totalW [] = totalW [] + w
      ring
    | succ j =>
      rw [List.take_succ_cons, List.take_succ_cons, totalW_cons, totalW_cons,
        List.getD_cons_succ, ih j (by simpa using h), add_assoc]

lemma totalW_nonneg (ws : List ℚ) (hw : ∀ x ∈ ws, 0 ≤ x) : 0 ≤ totalW ws := by
  induction ws with
  | nil => exact le_refl 0
  | cons w rest ih =>
    rw [totalW_cons]
    have h1 := hw w (List.mem_cons_self w rest)
    have h2 := ih (fun x hx => hw x (List.mem_cons_of_mem _ hx))
    linarith

lemma getD_mem_or_default (ws : List ℚ) : ∀ i : ℕ, ws.getD i 0 ∈ ws ∨ ws.getD i 0 = 0 := by
  induction ws with
  | nil => intro i; right; rfl
  | cons w rest ih =>
    intro i
    cases i with
    | zero => left; exact List.mem_cons_self _ _
    | succ j =>
      rcases ih j with h | h
      · left; exact List.mem_cons_of_mem _ h
      · right; exact h

lemma chunk_frac_nonneg (ws : List ℚ) (hw : ∀ x ∈ ws, 0 ≤ x) (i : ℕ) :
    0 ≤ chunk_frac ws i := by
  unfold chunk_frac
  apply mul_nonneg
  · rcases getD_mem_or_default ws i with h | h
    · exact hw _ h
    · rw [h]
  · exact one_div_nonneg.mpr (totalW_nonneg ws hw)

lemma chunk_adjacent (ws : List ℚ) (i : ℕ) (h : i + 1 < ws.length) :
    chunk_center_v ws i - chunk_frac ws i =
      chunk_center_v ws (i + 1) + chunk_frac ws (i + 1)
    ∧ chunk_center_h ws i + chunk_frac ws i =
      chunk_center_h ws (i + 1) - chunk_frac ws (i + 1) := by
  have hoff : chunk_offset ws (i + 1) = chunk_offset ws i + ws.getD i 0 :=
    totalW_take_succ ws i (by omega)
  unfold chunk_center_v chunk_center_h chunk_frac chunk_offset at *
  rw [hoff]
  constructor <;> ring

lemma split_weights_go_length (ctx : DrawContext) (tinv : ℚ) (v : Bool) :
    ∀ (ws : List ℚ) (off : ℚ), (split_weights_go ctx tinv v ws off).length = ws.length := by
  intro ws
  induction ws with
  | nil => intro off; rfl
  | cons w rest ih =>
    intro off
    show (split_weights_go ctx tinv v rest (off + w)).length + 1 = rest.length + 1
    rw [ih]

lemma split_weights_go_getD (ctx : DrawContext) (tinv : ℚ) (v : Bool) (d : DrawContext) :
    ∀ (ws : List ℚ) (off : ℚ) (i : ℕ), i < ws.length →
    (split_weights_go ctx tinv v ws off).getD i d =
      split_chunk ctx tinv v (off + totalW (ws.take i)) (ws.getD i 0) := by
  intro ws
  induction ws with
  | nil => intro off i h; simp at h
  | cons w rest ih =>
    intro off i h
    cases i with
    | zero =>
      simp only [split_weights_go, List.getD_cons_zero, List.take_zero,
        List.getD_cons_zero]
      rw [show totalW ([] : List ℚ) = 0 from rfl, add_zero]
    | succ j =>
      simp only [split_weights_go, List.getD_cons_succ, List.take_succ_cons]
      rw [ih (off + w) j (by simpa using h), totalW_cons, ← add_assoc]

lemma split_chunk_width_v (ctx : DrawContext) (tinv off w : ℚ) :
    (split_chunk ctx tinv true off w).width = ctx.width := by
  simp [split_chunk]

lemma split_chunk_height_v (ctx : DrawContext) (tinv off w : ℚ) :
    (split_chunk ctx tinv true off w).height = ctx.height * w * tinv := by
  simp [split_chunk]

lemma split_chunk_matrix_v (ctx : DrawContext) (tinv off w : ℚ) :
    (split_chunk ctx tinv true off w).matrix =
      ctx.matrix * Matrix.translate 0 (1 - 2 * (off + w * (1/2)) * tinv)
        * Matrix.scale_wh 1 (w * tinv) := by
  simp [split_chunk]

lemma split_chunk_width_h (ctx : DrawContext) (tinv off w : ℚ) :
    (split_chunk ctx tinv false off w).width = ctx.width * w * tinv := by
  simp [split_chunk]

lemma split_chunk_height_h (ctx : DrawContext) (tinv off w : ℚ) :
    (split_chunk ctx tinv false off w).height = ctx.height := by
  simp [split_chunk]

lemma split_chunk_matrix_h (ctx : DrawContext) (tinv off w : ℚ) :
    (split_chunk ctx tinv false off w).matrix =
      ctx.matrix * Matrix.translate (2 * (off + w * (1/2)) * tinv - 1) 0
        * Matrix.scale_wh (w * tinv) 1 := by
  simp [split_chunk]

lemma split_weights_some (ctx : DrawContext) (ws : List ℚ) (v : Bool) (hne : ws ≠ []) :
    ctx.split_weights ws v = some (split_weights_go ctx (1 / totalW ws) v ws 0) := by
  simp only [DrawContext.split_weights]
  rw [if_neg (by simpa [List.length_eq_zero] using hne)]

lemma mul_def (a b : Matrix) : a * b = Matrix.mul a b := rfl

lemma affine_mul (sx sy tx ty : ℚ) :
    Matrix.translate tx ty * Matrix.scale_wh sx sy =
      ⟨sx, 0, 0, 0, sy, 0, tx, ty, 1⟩ := by
  show Matrix.mul (Matrix.translate tx ty) (Matrix.scale_wh sx sy) = _
  simp [Matrix.mul, Matrix.translate, Matrix.scale_wh]

lemma testHover_affine (sx sy tx ty px py : ℚ) :
    testHover (Matrix.translate tx ty * Matrix.scale_wh sx sy) ⟨px, py⟩ = true ↔
      (0 ≤ (px - (tx - sx)) * (2 * sx) ∧ 0 ≤ (py - (ty + sy)) * (-(2 * sy)) ∧
       0 ≤ (px - (tx + sx)) * (-(2 * sx)) ∧ 0 ≤ (py - (ty - sy)) * (2 * sy)) := by
  rw [affine_mul]
  simp only [testHover, Matrix.applyH]
  norm_num
  constructor
  · rintro ⟨h1, h2, h3, h4⟩
    refine ⟨?_, ?_, ?_, ?_⟩ <;> linarith
  · rintro ⟨h1, h2, h3, h4⟩
    refine ⟨?_, ?_, ?_, ?_⟩ <;> linarith

lemma insideQuad_affine (sx sy tx ty px py : ℚ) (hsx : sx ≠ 0) (hsy : sy ≠ 0) :
    insideQuad (Matrix.translate tx ty * Matrix.scale_wh sx sy) ⟨px, py⟩ ↔
      (0 ≤ (px - (tx - sx)) * (2 * sx) ∧ 0 ≤ (py - (ty + sy)) * (-(2 * sy)) ∧
       0 ≤ (px - (tx + sx)) * (-(2 * sx)) ∧ 0 ≤ (py - (ty - sy)) * (2 * sy)) := by
  rw [affine_mul]
  constructor
  · rintro ⟨u, v, hu1, hu2, hv1, hv2, heq⟩
    have hx : u * sx + tx = px := by
      have h := congrArg P2.x heq
      simp only [projPoint, Matrix.applyH] at h
      norm_num at h
      linarith
    have hy : v * sy + ty = py := by
      have h := congrArg P2.y heq
      simp only [projPoint, Matrix.applyH] at h
      norm_num at h
      linarith
    subst hx
    subst hy
    have e1 : 0 ≤ (u + 1) * sx^2 := mul_nonneg (by linarith) (sq_nonneg sx)
    have e2 : 0 ≤ (1 - u) * sx^2 := mul_nonneg (by linarith) (sq_nonneg sx)
    have e3 : 0 ≤ (v + 1) * sy^2 := mul_nonneg (by linarith) (sq_nonneg sy)
    have e4 : 0 ≤ (1 - v) * sy^2 := mul_nonneg (by linarith) (sq_nonneg sy)
    refine ⟨by nlinarith [e1], by nlinarith [e4], by nlinarith [e2], by nlinarith [e3]⟩
  · rintro ⟨h1, h2, h3, h4⟩
    have hsx2 : 0 < sx^2 := by positivity
    have hsy2 : 0 < sy^2 := by positivity
    have hxrw : (px - tx)/sx = ((px - tx) * sx)/sx^2 := by
      rw [sq]
      exact (mul_div_mul_right _ _ hsx).symm
    have hyrw : (py - ty)/sy = ((py - ty) * sy)/sy^2 := by
      rw [sq]
      exact (mul_div_mul_right _ _ hsy).symm
    refine ⟨(px - tx)/sx, (py - ty)/sy, ?_, ?_, ?_, ?_, ?_⟩
    · rw [hxrw, le_div_iff₀ hsx2]
      nlinarith [h1]
    · rw [hxrw, div_le_iff₀ hsx2]
      nlinarith [h3]
    · rw [hyrw, le_div_iff₀ hsy2]
      nlinarith [h4]
    · rw [hyrw, div_le_iff₀ hsy2]
      nlinarith [h2]
    · simp only [projPoint, Matrix.applyH]
      norm_num
      constructor <;> field_simp

/-! ## Claim theorems -/

/-- C8 counterexample: with duration 0 the returned value does not approach
`1` as elapsed time grows, although the claim quantifies over every duration.
(In the exact-arithmetic embedding division by zero makes the function
constantly `0`; in IEEE the value is exactly `1.0` for any positive elapsed
time, which instead falsifies the "never exactly 1" conjunct.) -/
theorem ease_out_zero_duration_cex :
    ¬ Filter.Tendsto (fun now => EaseOut.calculate 10 now 0 0)
        Filter.atTop (nhds 1) := by
  intro h
  have hfun : (fun now => EaseOut.calculate 10 now 0 0) = fun _ : ℝ => (0:ℝ) := by
    funext now
    unfold EaseOut.calculate
    split_ifs
    · rfl
    · simp
  rw [hfun] at h
  have h0 : Filter.Tendsto (fun _ : ℝ => (0:ℝ)) Filter.atTop (nhds 0) :=
    tendsto_const_nhds
  have h10 : (1 : ℝ) = 0 := tendsto_nhds_unique h h0
  norm_num at h10

/-- C8 amended: for every start time and every positive duration, the
`EaseOut` interpolation with factor 10 returns exactly `0` when `now = start`,
never returns exactly `1` at any time, and tends to `1` as `now → ∞`. -/
theorem ease_out_spec (start duration : ℝ) (hd : 0 < duration) :
    EaseOut.calculate 10 start start duration = 0
    ∧ (∀ now, EaseOut.calculate 10 now start duration ≠ 1)
    ∧ Filter.Tendsto (fun now => EaseOut.calculate 10 now start duration)
        Filter.atTop (nhds 1) := by
  refine ⟨?_, ?_, ?_⟩
  · unfold EaseOut.calculate
    rw [if_neg (lt_irrefl start)]
    simp
  · intro now
    unfold EaseOut.calculate
    split_ifs
    · norm_num
    · intro h
      have hz : Real.exp (-((now - start) / duration) * 10) = 0 := by linarith
      exact (Real.exp_pos _).ne' hz
  · have hev : (fun now => 1 - Real.exp (-((now - start) / duration) * 10))
        =ᶠ[Filter.atTop] (fun now => EaseOut.calculate 10 now start duration) := by
      filter_upwards [Filter.eventually_ge_atTop start] with now hnow
      unfold EaseOut.calculate
      rw [if_neg (not_lt.mpr hnow)]
    refine Filter.Tendsto.congr' hev ?_
    have h1 : Filter.Tendsto (fun now : ℝ => now - start) Filter.atTop Filter.atTop := by
      simpa [sub_eq_add_neg] using
        Filter.tendsto_atTop_add_const_right Filter.atTop (-start) Filter.tendsto_id
    have h2 := h1.atTop_div_const hd
    have h3 : Filter.Tendsto (fun now : ℝ => -((now - start) / duration))
        Filter.atTop Filter.atBot := Filter.tendsto_neg_atTop_atBot.comp h2
    have h4 := h3.atBot_mul_const (show (0:ℝ) < 10 by norm_num)
    have h5 : Filter.Tendsto
        (fun now : ℝ => Real.exp (-((now - start) / duration) * 10))
        Filter.atTop (nhds 0) := Real.tendsto_exp_atBot.comp h4
    simpa using h5.const_sub 1

/-- C8 witness: the amended facts at `start = 0`, `duration = 1`, evaluated
at `now = 5` for the never-exactly-one conjunct. -/
theorem ease_out_spec_witness :
    EaseOut.calculate 10 0 0 1 = 0 ∧ EaseOut.calculate 10 5 0 1 ≠ 1 := by
  have h := ease_out_spec 0 1 one_pos
  exact ⟨h.1, h.2.1 5⟩

/-- C3 counterexample: a viewport node reached through a documented
operation — `rescale(0, 1)` on a root-sized node — has the degenerate
cumulative transform `diag(0, 1)`.  On that node `is_cursor_hovering`
returns `true` for a cursor at `(10, 0)`, far outside the root viewport and
not inside the (collapsed) quadrilateral of the four mapped square corners,
falsifying both the claimed iff and the claimed `false`-far-outside
behavior. -/
theorem is_cursor_hovering_degenerate_cex :
    DrawContext.is_cursor_hovering
      ((⟨Matrix.identity, 2, 1, some ⟨10, 0⟩, false, false, 0⟩ : DrawContext).rescale 0 1
        Alignment.center) = true
    ∧ ¬ insideQuad
        ((⟨Matrix.identity, 2, 1, some ⟨10, 0⟩, false, false, 0⟩ : DrawContext).rescale 0 1
          Alignment.center).matrix ⟨10, 0⟩ := by
  have hm : ((⟨Matrix.identity, 2, 1, some ⟨10, 0⟩, false, false, 0⟩ : DrawContext).rescale 0 1
      Alignment.center).matrix = (⟨0, 0, 0, 0, 1, 0, 0, 0, 1⟩ : Matrix) := by
    simp [DrawContext.rescale, Alignment.center, mul_def, Matrix.mul, Matrix.identity,
      Matrix.translate, Matrix.scale_wh]
  constructor
  · show testHover ((⟨Matrix.identity, 2, 1, some ⟨10, 0⟩, false, false, 0⟩ :
        DrawContext).rescale 0 1 Alignment.center).matrix ⟨10, 0⟩ = true
    rw [hm]
    norm_num [testHover, Matrix.applyH]
  · rw [hm]
    rintro ⟨u, v, hu1, hu2, hv1, hv2, heq⟩
    have hx := congrArg P2.x heq
    simp only [projPoint, Matrix.applyH] at hx
    norm_num at hx

/-- C3 amended: for a viewport node whose cumulative transform is a
*non-degenerate* translate-and-scale composition (nonzero scale factors) —
the transforms the library's layout operations produce, except for
zero-percent rescales and zero-weight split chunks, where the quadrilateral
collapses and the test degenerates — and whose cursor is present,
`is_cursor_hovering` returns `true` exactly when the cursor lies inside the
quadrilateral obtained by mapping the corners of the square `(-1,-1)..(1,1)`
through the transform with division by the homogeneous `w` (`insideQuad`);
in particular it is `true` for the cursor at the node's transformed center,
and `false` for a cursor beyond the root viewport's right edge when the node
lies inside the root viewport. -/
theorem is_cursor_hovering_spec (sx sy tx ty w h : ℚ) (pr rl : Bool) (s2 : ℕ)
    (hsx : sx ≠ 0) (hsy : sy ≠ 0) :
    (∀ c : P2, DrawContext.is_cursor_hovering
        ⟨Matrix.translate tx ty * Matrix.scale_wh sx sy, w, h, some c, pr, rl, s2⟩ = true ↔
      insideQuad (Matrix.translate tx ty * Matrix.scale_wh sx sy) c)
    ∧ DrawContext.is_cursor_hovering
        ⟨Matrix.translate tx ty * Matrix.scale_wh sx sy, w, h,
          some (projPoint ((Matrix.translate tx ty * Matrix.scale_wh sx sy).applyH ⟨0, 0, 1⟩)),
          pr, rl, s2⟩ = true
    ∧ (∀ c : P2, tx + |sx| ≤ 1 → 1 < c.x →
        DrawContext.is_cursor_hovering
          ⟨Matrix.translate tx ty * Matrix.scale_wh sx sy, w, h, some c, pr, rl, s2⟩ = false) := by
  have hred : ∀ c : P2, DrawContext.is_cursor_hovering
      ⟨Matrix.translate tx ty * Matrix.scale_wh sx sy, w, h, some c, pr, rl, s2⟩ =
      testHover (Matrix.translate tx ty * Matrix.scale_wh sx sy) c := fun _ => rfl
  have hiff : ∀ c : P2, testHover (Matrix.translate tx ty * Matrix.scale_wh sx sy) c = true ↔
      insideQuad (Matrix.translate tx ty * Matrix.scale_wh sx sy) c := by
    intro c
    rw [show c = (⟨c.x, c.y⟩ : P2) from rfl, testHover_affine,
      insideQuad_affine sx sy tx ty c.x c.y hsx hsy]
  refine ⟨fun c => by rw [hred c]; exact hiff c, ?_, ?_⟩
  · have hcenter : projPoint ((Matrix.translate tx ty * Matrix.scale_wh sx sy).applyH
        ⟨0, 0, 1⟩) = (⟨tx, ty⟩ : P2) := by
      rw [affine_mul]
      simp [projPoint, Matrix.applyH]
    rw [hred, hcenter, testHover_affine]
    refine ⟨by nlinarith [sq_nonneg sx], by nlinarith [sq_nonneg sy],
      by nlinarith [sq_nonneg sx], by nlinarith [sq_nonneg sy]⟩
  · intro c hin hfar
    rw [hred c]
    rw [Bool.eq_false_iff]
    intro htrue
    have hbox : 0 ≤ (c.x - (tx - sx)) * (2 * sx) ∧ 0 ≤ (c.y - (ty + sy)) * (-(2 * sy)) ∧
        0 ≤ (c.x - (tx + sx)) * (-(2 * sx)) ∧ 0 ≤ (c.y - (ty - sy)) * (2 * sy) := by
      rw [show c = (⟨c.x, c.y⟩ : P2) from rfl, testHover_affine] at htrue
      exact htrue
    rcases lt_or_gt_of_ne hsx with hneg | hpos
    · have habs : |sx| = -sx := abs_of_neg hneg
      have h1 := hbox.1
      nlinarith [h1, habs, hin, hfar]
    · have habs : |sx| = sx := abs_of_pos hpos
      have h3 := hbox.2.2.1
      nlinarith [h3, habs, hin, hfar]

/-- C3 witness: a concrete non-degenerate node (scale `1/2`, centered at
`(1/4, 0)`): the cursor at the transformed center hovers. -/
theorem is_cursor_hovering_spec_witness :
    DrawContext.is_cursor_hovering
      ⟨Matrix.translate (1/4) 0 * Matrix.scale_wh (1/2) (1/2), 2, 1,
        some (projPoint ((Matrix.translate (1/4) 0 * Matrix.scale_wh (1/2) (1/2)).applyH
          ⟨0, 0, 1⟩)),
        false, false, 0⟩ = true :=
  (is_cursor_hovering_spec (1/2) (1/2) (1/4) 0 2 1 false false 0
    (by norm_num) (by norm_num)).2.1

/-- C5: on every viewport and non-empty sequence of non-negative weights,
`vertical_split_weights` (resp. `horizontal_split_weights`) returns one child
per weight; child `i` has height (resp. width) `weight_i / Σweights` times
the parent's, the other dimension unchanged, and its transform is the
parent's composed with the chunk's translate/scale; the chunk fractions are
non-negative and consecutive chunks share an edge (the low edge of chunk `i`
is the high edge of chunk `i+1` along the axis), so the chunks are laid out
in order with no gaps and no overlap.  In particular `[1,1]` gives two
children of half height at normalized offsets `+1/2` and `-1/2`, and `[1,3]`
gives the second chunk exactly 3 times the first's size along the axis. -/
theorem split_weights_layout (ctx : DrawContext) (ws : List ℚ)
    (hne : ws ≠ []) (hw : ∀ x ∈ ws, 0 ≤ x) :
    (∃ LV, ctx.vertical_split_weights ws = some LV ∧ LV.length = ws.length ∧
      ∀ i, i < ws.length →
        (LV.getD i ctx).width = ctx.width ∧
        (LV.getD i ctx).height = ctx.height * (ws.getD i 0 / totalW ws) ∧
        (LV.getD i ctx).matrix = ctx.matrix * Matrix.translate 0 (chunk_center_v ws i)
          * Matrix.scale_wh 1 (chunk_frac ws i))
    ∧ (∃ LH, ctx.horizontal_split_weights ws = some LH ∧ LH.length = ws.length ∧
      ∀ i, i < ws.length →
        (LH.getD i ctx).height = ctx.height ∧
        (LH.getD i ctx).width = ctx.width * (ws.getD i 0 / totalW ws) ∧
        (LH.getD i ctx).matrix = ctx.matrix * Matrix.translate (chunk_center_h ws i) 0
          * Matrix.scale_wh (chunk_frac ws i) 1)
    ∧ (∀ i, i < ws.length → 0 ≤ chunk_frac ws i)
    ∧ (∀ i, i + 1 < ws.length →
        chunk_center_v ws i - chunk_frac ws i =
          chunk_center_v ws (i + 1) + chunk_frac ws (i + 1)
        ∧ chunk_center_h ws i + chunk_frac ws i =
          chunk_center_h ws (i + 1) - chunk_frac ws (i + 1))
    ∧ (∃ L2, ctx.vertical_split_weights [1, 1] = some L2 ∧ L2.length = 2 ∧
        (L2.getD 0 ctx).height = ctx.height / 2 ∧ (L2.getD 1 ctx).height = ctx.height / 2 ∧
        (L2.getD 0 ctx).width = ctx.width ∧ (L2.getD 1 ctx).width = ctx.width ∧
        (L2.getD 0 ctx).matrix = ctx.matrix * Matrix.translate 0 (1/2)
          * Matrix.scale_wh 1 (1/2) ∧
        (L2.getD 1 ctx).matrix = ctx.matrix * Matrix.translate 0 (-(1/2))
          * Matrix.scale_wh 1 (1/2))
    ∧ (∃ L13, ctx.vertical_split_weights [1, 3] = some L13 ∧
        (L13.getD 1 ctx).height = 3 * (L13.getD 0 ctx).height) := by
  refine ⟨?_, ?_, fun i _ => chunk_frac_nonneg ws hw i, fun i hi => chunk_adjacent ws i hi,
    ?_, ?_⟩
  · refine ⟨split_weights_go ctx (1 / totalW ws) true ws 0,
      split_weights_some ctx ws true hne, split_weights_go_length ctx _ true ws 0, ?_⟩
    intro i hi
    rw [split_weights_go_getD ctx _ true ctx ws 0 i hi, split_chunk_width_v,
      split_chunk_height_v, split_chunk_matrix_v]
    refine ⟨rfl, by rw [mul_assoc, mul_one_div], ?_⟩
    unfold chunk_center_v chunk_frac chunk_offset
    rw [zero_add]
  · refine ⟨split_weights_go ctx (1 / totalW ws) false ws 0,
      split_weights_some ctx ws false hne, split_weights_go_length ctx _ false ws 0, ?_⟩
    intro i hi
    rw [split_weights_go_getD ctx _ false ctx ws 0 i hi, split_chunk_width_h,
      split_chunk_height_h, split_chunk_matrix_h]
    refine ⟨rfl, by rw [mul_assoc, mul_one_div], ?_⟩
    unfold chunk_center_h chunk_frac chunk_offset
    rw [zero_add]
  · have ht : totalW [1, 1] = (2 : ℚ) := by
      rw [totalW_cons, totalW_cons]
      norm_num [totalW]
    refine ⟨split_weights_go ctx (1 / totalW [1, 1]) true [1, 1] 0,
      split_weights_some ctx [1, 1] true (by simp), rfl, ?_, ?_, ?_, ?_, ?_, ?_⟩
    · show (split_chunk ctx (1 / totalW [1, 1]) true 0 1).height = ctx.height / 2
      rw [split_chunk_height_v, ht]
      ring
    · show (split_chunk ctx (1 / totalW [1, 1]) true (0 + 1) 1).height = ctx.height / 2
      rw [split_chunk_height_v, ht]
      ring
    · exact split_chunk_width_v ctx _ 0 1
    · exact split_chunk_width_v ctx _ (0 + 1) 1
    · show (split_chunk ctx (1 / totalW [1, 1]) true 0 1).matrix = _
      rw [split_chunk_matrix_v, ht]
      norm_num
    · show (split_chunk ctx (1 / totalW [1, 1]) true (0 + 1) 1).matrix = _
      rw [split_chunk_matrix_v, ht]
      norm_num
  · have ht : totalW [1, 3] = (4 : ℚ) := by
      rw [totalW_cons, totalW_cons]
      norm_num [totalW]
    refine ⟨split_weights_go ctx (1 / totalW [1, 3]) true [1, 3] 0,
      split_weights_some ctx [1, 3] true (by simp), ?_⟩
    show (split_chunk ctx (1 / totalW [1, 3]) true (0 + 1) 3).height =
      3 * (split_chunk ctx (1 / totalW [1, 3]) true 0 1).height
    rw [split_chunk_height_v, split_chunk_height_v, ht]
    ring

/-- C5 witness: on a concrete 1×1 viewport, splitting with weights `[1,3]`
gives a second chunk exactly 3 times the first's height. -/
theorem split_weights_layout_witness :
    ∃ L13, (⟨Matrix.identity, 1, 1, none, false, false, 0⟩ : DrawContext).vertical_split_weights
        [1, 3] = some L13 ∧
      (L13.getD 1 ⟨Matrix.identity, 1, 1, none, false, false, 0⟩).height =
        3 * (L13.getD 0 ⟨Matrix.identity, 1, 1, none, false, false, 0⟩).height :=
  (split_weights_layout ⟨Matrix.identity, 1, 1, none, false, false, 0⟩ [1, 3]
    (by simp)
    (by
      intro x hx
      simp only [List.mem_cons, List.not_mem_nil, or_false] at hx
      rcases hx with h | h <;> rw [h] <;> norm_num)).2.2.2.2.2

/-- C9: `vertical_split_weights` and `horizontal_split_weights` abort
(`assert!` failure, embedded as `none`) exactly when the weight sequence is
empty; on every non-empty weight sequence they return a result. -/
theorem split_weights_abort_iff_empty (ctx : DrawContext) (weights : List ℚ) :
    (ctx.vertical_split_weights weights = none ↔ weights = []) ∧
    (ctx.horizontal_split_weights weights = none ↔ weights = []) :=
  ⟨split_weights_none_iff ctx weights true, split_weights_none_iff ctx weights false⟩

/-- C1 counterexample: inside one root draw call, two sibling subtrees share
the same `Shared2` flag.  Calling `set_cursor_hovered_widget` on a descendant
of sibling `A` (built with `rescale`) makes `cursor_hovered_widget` return
`true` on sibling `B` as well, where the claim requires `false`. -/
theorem hover_sibling_cex :
    DrawContext.cursor_hovered_widget
      ((sharedDraw draw 2 2 none false false).1.rescale (1/2) (1/2) Alignment.bottom_right)
      (DrawContext.set_cursor_hovered_widget
        (((sharedDraw draw 2 2 none false false).1.rescale (1/2) (1/2)
            Alignment.top_left).rescale (1/2) (1/2) Alignment.center)
        (sharedDraw draw 2 2 none false false).2) = true := rfl

/-- C1 amended: `set_cursor_hovered_widget` on a node sets the session-wide
flag and the flag shared by every node derived from the same root
`SharedDrawContext::draw` call — the node itself, its ancestors, and also
sibling subtrees of that call (which the original claim required to stay
false).  Nodes belonging to a different root draw call of the same session
are unaffected.  The composition operations hand the parent's `Shared2`
reference down unchanged, so "derived from the same root draw call" is
exactly "same `shared2` index". -/
theorem set_cursor_hovered_widget_scope (w : World) (n m : DrawContext)
    (hn : n.shared2 < w.shared2.length) :
    sharedCursorHoveredWidget (n.set_cursor_hovered_widget w) = true
    ∧ (m.shared2 = n.shared2 →
        m.cursor_hovered_widget (n.set_cursor_hovered_widget w) = true)
    ∧ (m.shared2 ≠ n.shared2 →
        m.cursor_hovered_widget (n.set_cursor_hovered_widget w) =
          m.cursor_hovered_widget w)
    ∧ (∀ wp hp al, (n.rescale wp hp al).shared2 = n.shared2)
    ∧ (∀ t r b l, (n.margin t r b l).shared2 = n.shared2)
    ∧ (∀ s al, (n.vertical_rescale s al).shared2 = n.shared2)
    ∧ (∀ s al, (n.horizontal_rescale s al).shared2 = n.shared2) := by
  refine ⟨rfl, ?_, ?_, fun _ _ _ => rfl, fun _ _ _ _ => rfl, fun _ _ => rfl, fun _ _ => rfl⟩
  · intro hm
    unfold DrawContext.cursor_hovered_widget DrawContext.set_cursor_hovered_widget
    rw [hm]
    exact getD_set_self w.shared2 n.shared2 hn
  · intro hm
    unfold DrawContext.cursor_hovered_widget DrawContext.set_cursor_hovered_widget
    exact getD_set_ne w.shared2 true n.shared2 m.shared2 (fun h => hm h.symm)

/-- C1 witness: with one root draw call made (one `Shared2` cell), setting
the flag through a node makes both the session-wide flag and the node's
`cursor_hovered_widget` read back `true`. -/
theorem set_cursor_hovered_widget_scope_witness :
    sharedCursorHoveredWidget
      (DrawContext.set_cursor_hovered_widget
        ⟨Matrix.identity, 1, 1, none, false, false, 0⟩ ⟨⟨1, false, none⟩, [false]⟩) = true
    ∧ DrawContext.cursor_hovered_widget ⟨Matrix.identity, 1, 1, none, false, false, 0⟩
        (DrawContext.set_cursor_hovered_widget
          ⟨Matrix.identity, 1, 1, none, false, false, 0⟩ ⟨⟨1, false, none⟩, [false]⟩) = true := by
  have h := set_cursor_hovered_widget_scope ⟨⟨1, false, none⟩, [false]⟩
    ⟨Matrix.identity, 1, 1, none, false, false, 0⟩
    ⟨Matrix.identity, 1, 1, none, false, false, 0⟩ (by simp)
  exact ⟨h.1, h.2.1 rfl⟩

/-- C2 counterexample: on a 2×1 viewport with all four margins `1/2`,
`uniform_margin` differs from the claim's reading (top/bottom normalized by
clamped width-per-height and left/right by clamped height-per-width): the
code normalizes top/bottom by the clamped height-per-width and left/right by
the clamped width-per-height. -/
theorem uniform_margin_claimed_cex :
    (⟨Matrix.identity, 2, 1, none, false, false, 0⟩ : DrawContext).uniform_margin
        (1/2) (1/2) (1/2) (1/2) ≠
      (⟨Matrix.identity, 2, 1, none, false, false, 0⟩ : DrawContext).uniform_margin_claimed
        (1/2) (1/2) (1/2) (1/2) := by
  intro h
  have hw := congrArg DrawContext.width h
  simp only [DrawContext.uniform_margin, DrawContext.uniform_margin_claimed,
    DrawContext.width_per_height, DrawContext.margin, DrawContext.rescale] at hw
  norm_num at hw

/-- C2 amended: `uniform_margin(top, right, bottom, left)` equals `margin`
with the top and bottom percentages divided by the viewport's
height-per-width ratio clamped to at least 1, and the left and right
percentages divided by its width-per-height ratio clamped to at least 1. -/
theorem uniform_margin_normalizes (ctx : DrawContext) (top right bottom left : ℚ) :
    ctx.uniform_margin top right bottom left =
      ctx.margin (top / max (ctx.height / ctx.width) 1)
        (right / max (ctx.width / ctx.height) 1)
        (bottom / max (ctx.height / ctx.width) 1)
        (left / max (ctx.width / ctx.height) 1) := by
  simp only [DrawContext.uniform_margin, DrawContext.width_per_height, clamp_one, one_div_div]

/-- C4: `cursor_hover_coordinates` returns `none` when the cumulative
transform is singular (`invert` returns `none`) or the cursor is absent;
otherwise it maps the cursor through the inverse with division by the
homogeneous `w` component, returning `none` exactly when the result's x or y
leaves `[-1,1]` (over exact rationals the source's NaN guard `x != x` is
decidably false), and every returned `some` value lies in `[-1,1]` on both
coordinates. -/
theorem cursor_hover_coordinates_spec (ctx : DrawContext) :
    ((ctx.matrix.invert = none ∨ ctx.cursor = none) →
      ctx.cursor_hover_coordinates = none)
    ∧ (∀ m p, ctx.matrix.invert = some m → ctx.cursor = some p →
        (ctx.cursor_hover_coordinates = none ↔
          ((invMap m p).x < -1 ∨ 1 < (invMap m p).x ∨
           (invMap m p).y < -1 ∨ 1 < (invMap m p).y))
        ∧ (∀ q, ctx.cursor_hover_coordinates = some q → q = invMap m p))
    ∧ (∀ q, ctx.cursor_hover_coordinates = some q →
        -1 ≤ q.x ∧ q.x ≤ 1 ∧ -1 ≤ q.y ∧ q.y ≤ 1) := by
  refine ⟨?_, ?_, ?_⟩
  · rintro (h | h)
    · simp [DrawContext.cursor_hover_coordinates, h]
    · rcases hi2 : ctx.matrix.invert <;>
        simp [DrawContext.cursor_hover_coordinates, h, hi2]
  · intro m p hm hp
    have hred : ctx.cursor_hover_coordinates =
        if (invMap m p).x < -1 ∨ (invMap m p).x > 1 ∨
           (invMap m p).x ≠ (invMap m p).x ∨
           (invMap m p).y < -1 ∨ (invMap m p).y > 1 ∨
           (invMap m p).y ≠ (invMap m p).y then none
        else some (invMap m p) := by
      simp only [DrawContext.cursor_hover_coordinates, hm, hp, invMap]
    constructor
    · rw [hred]
      split_ifs with hC
      · simp only [true_iff]
        rcases hC with h | h | h | h | h | h
        · exact Or.inl h
        · exact Or.inr (Or.inl h)
        · exact absurd rfl h
        · exact Or.inr (Or.inr (Or.inl h))
        · exact Or.inr (Or.inr (Or.inr h))
        · exact absurd rfl h
      · exact iff_of_false (by simp) (fun h => hC (by tauto))
    · intro q hq
      rw [hred] at hq
      split_ifs at hq
      injection hq with hq
      exact hq.symm
  · intro q hq
    rcases hi : ctx.matrix.invert with _ | m0
    · have hnone : ctx.cursor_hover_coordinates = none := by
        simp [DrawContext.cursor_hover_coordinates, hi]
      rw [hnone] at hq
      exact absurd hq (by simp)
    · rcases hc : ctx.cursor with _ | p0
      · have hnone : ctx.cursor_hover_coordinates = none := by
          simp [DrawContext.cursor_hover_coordinates, hi, hc]
        rw [hnone] at hq
        exact absurd hq (by simp)
      · have hred : ctx.cursor_hover_coordinates =
            if (invMap m0 p0).x < -1 ∨ (invMap m0 p0).x > 1 ∨
               (invMap m0 p0).x ≠ (invMap m0 p0).x ∨
               (invMap m0 p0).y < -1 ∨ (invMap m0 p0).y > 1 ∨
               (invMap m0 p0).y ≠ (invMap m0 p0).y then none
            else some (invMap m0 p0) := by
          simp only [DrawContext.cursor_hover_coordinates, hi, hc, invMap]
        rw [hred] at hq
        split_ifs at hq with hC
        push_neg at hC
        injection hq with hq
        subst hq
        exact ⟨hC.1, hC.2.1, hC.2.2.2.1, hC.2.2.2.2.1⟩

/-- C4 witness: with the identity transform and cursor `(1/2, 1/3)`,
`cursor_hover_coordinates` returns that point and it lies in `[-1,1]²`. -/
theorem cursor_hover_coordinates_spec_witness :
    (-1 : ℚ) ≤ (⟨1/2, 1/3⟩ : P2).x ∧ (⟨1/2, 1/3⟩ : P2).x ≤ 1 ∧
      (-1 : ℚ) ≤ (⟨1/2, 1/3⟩ : P2).y ∧ (⟨1/2, 1/3⟩ : P2).y ≤ 1 :=
  (cursor_hover_coordinates_spec
      ⟨Matrix.identity, 2, 1, some ⟨1/2, 1/3⟩, false, false, 0⟩).2.2 ⟨1/2, 1/3⟩
    (by norm_num [DrawContext.cursor_hover_coordinates, Matrix.invert, Matrix.det,
      Matrix.identity])

/-- C6: on a viewport of positive width and height and for a positive target
ratio `r`, `enforce_aspect_ratio_downscale(r, alignment)` yields a node whose
width-per-height equals `r` exactly, with width and height bounded by the
parent's; when the parent is wider than `r` it shrinks horizontally through
`horizontal_rescale` with the horizontal alignment, and when taller it
shrinks vertically through `vertical_rescale` with the vertical alignment. -/
theorem enforce_aspect_ratio_downscale_spec (ctx : DrawContext) (r : ℚ) (al : Alignment)
    (hW : 0 < ctx.width) (hH : 0 < ctx.height) (hr : 0 < r) :
    (ctx.enforce_aspect_ratio_downscale r al).width /
        (ctx.enforce_aspect_ratio_downscale r al).height = r
    ∧ (ctx.enforce_aspect_ratio_downscale r al).width ≤ ctx.width
    ∧ (ctx.enforce_aspect_ratio_downscale r al).height ≤ ctx.height
    ∧ (r < ctx.width_per_height →
        ctx.enforce_aspect_ratio_downscale r al =
          ctx.horizontal_rescale (r / ctx.width_per_height) al.horizontal)
    ∧ (ctx.width_per_height < r →
        ctx.enforce_aspect_ratio_downscale r al =
          ctx.vertical_rescale (ctx.width_per_height / r) al.vertical) := by
  have hWne : ctx.width ≠ 0 := hW.ne'
  have hHne : ctx.height ≠ 0 := hH.ne'
  have hrne : r ≠ 0 := hr.ne'
  have hcur : 0 < ctx.width_per_height := div_pos hW hH
  simp only [DrawContext.enforce_aspect_ratio_downscale]
  split_ifs with hgt
  · simp only [DrawContext.vertical_rescale]
    refine ⟨?_, le_refl _, ?_, ?_, fun _ => trivial⟩
    · show ctx.width / (ctx.height * (ctx.width_per_height / r)) = r
      unfold DrawContext.width_per_height at *
      field_simp
      ring
    · show ctx.height * (ctx.width_per_height / r) ≤ ctx.height
      exact mul_le_of_le_one_right hH.le ((div_le_one hr).mpr hgt.le)
    · intro hlt
      exact absurd hgt (by linarith)
  · push_neg at hgt
    simp only [DrawContext.horizontal_rescale]
    refine ⟨?_, ?_, le_refl _, fun _ => trivial, ?_⟩
    · show ctx.width * (r / ctx.width_per_height) / ctx.height = r
      unfold DrawContext.width_per_height at *
      field_simp
    · show ctx.width * (r / ctx.width_per_height) ≤ ctx.width
      exact mul_le_of_le_one_right hW.le ((div_le_one hcur).mpr hgt)
    · intro hlt
      exact absurd hlt (by linarith)

/-- C6 witness: a 4×1 viewport downscaled to ratio 2 with centered
alignment. -/
theorem enforce_aspect_ratio_downscale_spec_witness :
    ((⟨Matrix.identity, 4, 1, none, false, false, 0⟩ : DrawContext).enforce_aspect_ratio_downscale
          2 Alignment.center).width /
        ((⟨Matrix.identity, 4, 1, none, false, false, 0⟩ : DrawContext).enforce_aspect_ratio_downscale
          2 Alignment.center).height = 2
    ∧ ((⟨Matrix.identity, 4, 1, none, false, false, 0⟩ : DrawContext).enforce_aspect_ratio_downscale
          2 Alignment.center).width ≤
        (⟨Matrix.identity, 4, 1, none, false, false, 0⟩ : DrawContext).width
    ∧ ((⟨Matrix.identity, 4, 1, none, false, false, 0⟩ : DrawContext).enforce_aspect_ratio_downscale
          2 Alignment.center).height ≤
        (⟨Matrix.identity, 4, 1, none, false, false, 0⟩ : DrawContext).height := by
  have h := enforce_aspect_ratio_downscale_spec
    ⟨Matrix.identity, 4, 1, none, false, false, 0⟩ 2 Alignment.center
    (by norm_num) (by norm_num) (by norm_num)
  exact ⟨h.1, h.2.1, h.2.2.1⟩

/-- C7 counterexample: `Linear.calculate(start + duration, start, duration)`
is not `1` when the duration is zero (the code computes `0/0`; in exact
arithmetic the result is `0`, in IEEE it is NaN — either way not `1`). -/
theorem linear_calculate_zero_duration_cex :
    ¬ Linear.calculate ((5:ℚ) + 0) 5 0 = 1 := by
  norm_num [Linear.calculate]

/-- C7 amended: for every start time and every positive duration,
`Linear.calculate(start, start, d) = 0`,
`Linear.calculate(start + d, start, d) = 1`,
`Linear.calculate(start + 2d, start, d) = 1`, and in general the progress is
elapsed/duration clamped to `[0,1]` with elapsed saturating at `0` when
`now < start`. -/
theorem linear_calculate_clamped (start duration : ℚ) (hd : 0 < duration) :
    Linear.calculate start start duration = 0
    ∧ Linear.calculate (start + duration) start duration = 1
    ∧ Linear.calculate (start + 2 * duration) start duration = 1
    ∧ ∀ now, Linear.calculate now start duration =
        min 1 (max (now - start) 0 / duration) := by
  have key : ∀ now, Linear.calculate now start duration =
      min 1 (max (now - start) 0 / duration) := by
    intro now
    simp only [Linear.calculate]
    have hp0 : 0 ≤ max (now - start) 0 / duration :=
      div_nonneg (le_max_right _ _) hd.le
    split_ifs with h1 h2
    · exact (min_eq_left h1).symm
    · rw [le_antisymm h2 hp0]
      norm_num
    · push_neg at h1
      exact (min_eq_right h1.le).symm
  refine ⟨?_, ?_, ?_, key⟩
  · rw [key]
    simp
  · rw [key, add_sub_cancel_left, max_eq_left hd.le, div_self hd.ne']
    norm_num
  · rw [key, show start + 2 * duration - start = 2 * duration by ring,
      max_eq_left (by positivity), mul_div_assoc, div_self hd.ne']
    norm_num

/-- C7 witness: the amended clamping facts at `start = 5`, `duration = 10`. -/
theorem linear_calculate_clamped_witness :
    Linear.calculate 5 5 10 = 0
    ∧ Linear.calculate (5 + 10) 5 10 = 1
    ∧ Linear.calculate (5 + 2 * 10) 5 10 = 1 := by
  have h := linear_calculate_clamped 5 10 (by norm_num)
  exact ⟨h.1, h.2.1, h.2.2.1⟩

/-- C10: from a fresh session (`draw` initialises the counter to 1), `n`
successive `reserve_widget_id` calls return exactly `1, 2, …, n` (while `n`
stays below the `usize` wrap-around): the first id is 1, each id is one more
than the previous, the ids are strictly increasing and never repeat. -/
theorem reserve_widget_id_sequence (n : ℕ) (h : n + 1 ≤ usizeSize) :
    reserve_ids draw n = List.range' 1 n
    ∧ (0 < n → (reserve_ids draw n).getD 0 0 = 1)
    ∧ List.Chain' (fun a b => b = a + 1) (reserve_ids draw n)
    ∧ (reserve_ids draw n).Pairwise (· < ·)
    ∧ (reserve_ids draw n).Nodup := by
  have h1 : reserve_ids draw n = List.range' 1 n :=
    reserve_ids_range n draw (by simp only [draw]; omega)
  have hpw : (reserve_ids draw n).Pairwise (· < ·) := by
    rw [h1]
    exact List.pairwise_lt_range' 1 n
  refine ⟨h1, ?_, ?_, hpw, hpw.imp ne_of_lt⟩
  · intro hn
    rw [h1]
    cases n with
    | zero => omega
    | succ m => rw [List.range'_succ]; rfl
  · rw [h1]
    exact chain'_succ_range' 1 n

/-- C10 witness: three calls on a fresh session return `[1, 2, 3]`. -/
theorem reserve_widget_id_sequence_witness :
    reserve_ids draw 3 = List.range' 1 3
    ∧ (reserve_ids draw 3).Pairwise (· < ·) := by
  have h := reserve_widget_id_sequence 3 (by norm_num [usizeSize])
  exact ⟨h.1, h.2.2.2.1⟩

end Immi
